import Mathlib

/-!
Verification development for the dining-philosophers program
`src/DiningPhilosophersEdited.py`.

The Python program runs N philosopher threads around a ring of N forks,
plus a watchdog thread (`check_forks`) that forcibly releases a random
fork after a sustained stall.  We embed the program shallowly:

* `Fork` mirrors the Python `Fork` class (`picked_up`, `owner` with
  sentinel `-1`); `Fork.call` is `Fork.__call__` (after the blocking
  `lock.acquire()` succeeds) and `Fork.exit` is `Fork.__exit__`.
  The `threading.Lock` occupancy is identified with `picked_up`: the two
  are updated together in `__call__` and `__exit__`, which we model as
  atomic steps.
* `Phil` mirrors the Python `Philosopher` (`index`, fork references as
  ring indices, `spaghetti`, `eating`) extended with a program counter
  `PC` recording where the thread is inside `run`/`eat`.
* `philStep` is the interleaving small-step semantics of one
  philosopher thread; `forceRelease` is the watchdog's
  `fork.__exit__(*sys.exc_info())` intervention; `SysTrans`/`Reachable`
  describe system executions.
* `check_forks_body`/`check_forks_step` mirror one iteration of the
  watchdog loop `check_forks`; `randint` models `random.randint` as a
  function of a random draw `r`, each residue of `r` being an equally
  likely outcome of the uniform sampling.
* `mkTable` mirrors the construction performed in `main`.
-/

/-- Mirrors the Python class `Fork`: `index`, `picked_up`, `owner`
(sentinel `-1` when free).  `picked_up` also stands for the occupancy of
the underlying `threading.Lock`, which the class updates together with
the flag. -/
structure Fork where
  index : Nat
  picked_up : Bool
  owner : Int
deriving DecidableEq, Repr

/-- Mirrors `Fork.__init__`: `picked_up = False`, `owner = -1`. -/
def Fork.init (i : Nat) : Fork :=
  { index := i, picked_up := false, owner := -1 }

/-- Mirrors `Fork.__call__(owner)` once the blocking `lock.acquire()`
has succeeded: sets `owner` and `picked_up = True`. -/
def Fork.call (f : Fork) (o : Int) : Fork :=
  { f with owner := o, picked_up := true }

/-- Mirrors `Fork.__exit__`: if `picked_up` then release the lock and
set `picked_up = False`, `owner = -1`; otherwise do nothing. -/
def Fork.exit (f : Fork) : Fork :=
  if f.picked_up = true then { f with picked_up := false, owner := -1 } else f

/-- A history of operations applied to one fork: `call` is an acquire
(`Fork.__call__`), `exit` a release (`Fork.__exit__`). -/
inductive ForkOp where
  | call (o : Int)
  | exit
deriving DecidableEq, Repr

/-- Applies one `ForkOp` to a fork. -/
def Fork.applyOp (f : Fork) : ForkOp → Fork
  | .call o => f.call o
  | .exit => f.exit

/-- The resource invariant of the spec: a free fork has the sentinel
owner `-1`. -/
def Fork.freeInv (f : Fork) : Prop :=
  f.picked_up = false → f.owner = -1

/-- Program counter of a philosopher thread, following the body of
`Philosopher.run` and `Philosopher.eat` statement by statement:
`loopHead` is the `while self.spaghetti > 0` test; `thinking` is inside
`think()`; `acqLeft` is blocked in `self.left_fork(self.index)`;
`sleepL` is the `time.sleep` holding only the left fork; `acqRight` is
blocked in `self.right_fork(self.index)`; `decSpag` is about to run
`self.spaghetti -= 1`; `setEatT` is about to run `self.eating = True`;
`sleepEat` is the consumption `time.sleep`; `setEatF` is about to run
`self.eating = False`; `relRight` and `relLeft` are the implicit
`__exit__` calls of the two `with` blocks; `done` is thread exit. -/
inductive PC where
  | loopHead
  | thinking
  | acqLeft
  | sleepL
  | acqRight
  | decSpag
  | setEatT
  | sleepEat
  | setEatF
  | relRight
  | relLeft
  | done
deriving DecidableEq, Repr

/-- Mirrors the Python class `Philosopher`: identity, references to the
two forks (as ring indices), `spaghetti` (the remaining units), and the
`eating` flag, plus the control state of its thread. -/
structure Phil where
  index : Nat
  left : Nat
  right : Nat
  spaghetti : Int
  eating : Bool
  pc : PC
deriving DecidableEq, Repr

/-- Mirrors `Philosopher.__init__` (the `pc` starts at the loop head of
`run`). -/
def Phil.init (i : Nat) (left right : Nat) (m : Int) : Phil :=
  { index := i, left := left, right := right, spaghetti := m,
    eating := false, pc := .loopHead }

/-- Global state of the program: the forks and the philosophers, as maps
from ring position; positions `≥ n` are irrelevant padding. -/
structure Sys where
  forks : Nat → Fork
  phils : Nat → Phil

/-- Pointwise update of the fork map. -/
def updF (fs : Nat → Fork) (k : Nat) (f : Fork) : Nat → Fork :=
  fun j => if j = k then f else fs j

/-- Pointwise update of the philosopher map. -/
def updP (ps : Nat → Phil) (k : Nat) (p : Phil) : Nat → Phil :=
  fun j => if j = k then p else ps j

/-- One atomic step of philosopher thread `i`, following
`Philosopher.run` / `Philosopher.eat` in program order.  `none` means
the thread cannot move: it is blocked on a fork whose `picked_up` is
set (the `lock.acquire()` inside `Fork.__call__`), or has terminated.
Fork acquisition uses `p.index` as owner, as in
`self.left_fork(self.index)`. -/
def philStep (s : Sys) (i : Nat) : Option Sys :=
  let p := s.phils i
  match p.pc with
  | .loopHead =>
      if 0 < p.spaghetti then
        some { s with phils := updP s.phils i { p with pc := .thinking } }
      else
        some { s with phils := updP s.phils i { p with pc := .done } }
  | .thinking =>
      some { s with phils := updP s.phils i { p with pc := .acqLeft } }
  | .acqLeft =>
      if (s.forks p.left).picked_up then none
      else
        some { forks := updF s.forks p.left ((s.forks p.left).call (p.index : Int)),
               phils := updP s.phils i { p with pc := .sleepL } }
  | .sleepL =>
      some { s with phils := updP s.phils i { p with pc := .acqRight } }
  | .acqRight =>
      if (s.forks p.right).picked_up then none
      else
        some { forks := updF s.forks p.right ((s.forks p.right).call (p.index : Int)),
               phils := updP s.phils i { p with pc := .decSpag } }
  | .decSpag =>
      some { s with phils := updP s.phils i { p with spaghetti := p.spaghetti - 1, pc := .setEatT } }
  | .setEatT =>
      some { s with phils := updP s.phils i { p with eating := true, pc := .sleepEat } }
  | .sleepEat =>
      some { s with phils := updP s.phils i { p with pc := .setEatF } }
  | .setEatF =>
      some { s with phils := updP s.phils i { p with eating := false, pc := .relRight } }
  | .relRight =>
      some { forks := updF s.forks p.right (s.forks p.right).exit,
             phils := updP s.phils i { p with pc := .relLeft } }
  | .relLeft =>
      some { forks := updF s.forks p.left (s.forks p.left).exit,
             phils := updP s.phils i { p with pc := .loopHead } }
  | .done => none

/-- The watchdog's forced release of fork `k`:
`forks[fork_index].__exit__(*sys.exc_info())` in `check_forks`. -/
def forceRelease (s : Sys) (k : Nat) : Sys :=
  { s with forks := updF s.forks k (s.forks k).exit }

/-- One transition of the whole program with `n` philosopher threads:
either some philosopher thread moves, or the watchdog forcibly releases
one of the `n` forks. -/
inductive SysTrans (n : Nat) : Sys → Sys → Prop where
  | phil {s s2 : Sys} (i : Nat) (hi : i < n) (h : philStep s i = some s2) :
      SysTrans n s s2
  | force {s : Sys} (k : Nat) (hk : k < n) : SysTrans n s (forceRelease s k)

/-- A philosopher-only transition (no watchdog intervention). -/
def PhilTrans (n : Nat) (s s2 : Sys) : Prop :=
  ∃ i, i < n ∧ philStep s i = some s2

/-- Reachability under all transitions, watchdog included. -/
def Reachable (n : Nat) (s0 s : Sys) : Prop :=
  Relation.ReflTransGen (SysTrans n) s0 s

/-- Reachability under philosopher transitions only. -/
def ReachableNoWd (n : Nat) (s0 s : Sys) : Prop :=
  Relation.ReflTransGen (PhilTrans n) s0 s

/-- The initial state built in `main`: fork `i` fresh at position `i`,
philosopher `i` holding references to forks `i` and `(i+1) % n` with
`spaghetti = m`. -/
def initSys (n : Nat) (m : Int) : Sys :=
  { forks := fun i => Fork.init i,
    phils := fun i => Phil.init i i ((i + 1) % n) m }

/-- Runs a schedule of philosopher thread indices from a state,
skipping steps that are blocked (only used on schedules where every
step is enabled). -/
def runSched (s : Sys) : List Nat → Sys
  | [] => s
  | i :: rest => runSched ((philStep s i).getD s) rest

/-- The list of states visited while running a schedule of philosopher
thread indices. -/
def runTrace (s : Sys) : List Nat → List Sys
  | [] => [s]
  | i :: rest => s :: runTrace ((philStep s i).getD s) rest

/-- Number of philosophers whose `eating` flag is set:
`sum(philosopher.eating for philosopher in philosophers)` in
`check_forks`. -/
def eatingCount (philosophers : List Phil) : Nat :=
  philosophers.countP (fun p => p.eating)

/-- Models the standard library `random.randint(lo, hi)` as a function
of a uniform random draw `r`: every residue of `r` modulo the size of
the range is an equally likely outcome.  Returns `none` when the range
is empty, which in Python raises `ValueError`. -/
def randint (lo hi : Int) (r : Nat) : Option Int :=
  if lo ≤ hi then some (lo + (r : Int) % (hi - lo + 1)) else none

/-- One iteration of the watchdog loop `check_forks`, given the sampled
count of eating philosophers.  Returns `none` when `random.randint`
raises (empty fork list), otherwise the updated fork list, the updated
`system_time`, and whether a forced release was performed.  The
`time.sleep(1)` in the unhealthy branch changes no state and is
dropped. -/
def check_forks_body (eating_philosophers : Nat) (forks : List Fork)
    (system_time : Nat) (r : Nat) : Option (List Fork × Nat × Bool) :=
  if eating_philosophers = 1 ∨ eating_philosophers = 2 then
    some (forks, 0, false)
  else
    let system_time := system_time + 1
    if 15 < system_time then
      match randint 0 ((forks.length : Int) - 1) r with
      | none => none
      | some k =>
          some (forks.set k.toNat (Fork.exit (forks.getD k.toNat (Fork.init 0))), 0, true)
    else
      some (forks, system_time, false)

/-- One iteration of `check_forks` as written in the source: first
sample `eating_philosophers` from the philosopher list, then run the
body. -/
def check_forks_step (philosophers : List Phil) (forks : List Fork)
    (system_time : Nat) (r : Nat) : Option (List Fork × Nat × Bool) :=
  check_forks_body (eatingCount philosophers) forks system_time r

/-- Iterates the watchdog loop `k` times from `system_time = 0`, with
tick `j` sampling `counts j` eating philosophers and drawing `rands j`;
accumulates the number of forced releases performed. -/
def wdExec (counts rands : Nat → Nat) (forks : List Fork) :
    Nat → Option (List Fork × Nat × Nat)
  | 0 => some (forks, 0, 0)
  | k + 1 =>
      match wdExec counts rands forks k with
      | none => none
      | some (fs, t, nf) =>
          match check_forks_body (counts k) fs t (rands k) with
          | none => none
          | some (fs2, t2, b) => some (fs2, t2, nf + (if b then 1 else 0))

/-- Mirrors the construction in `main`: build the fork list, then the
philosopher list, philosopher `i` referencing `forks[i]` and
`forks[(i + 1) % n]`; a list-index failure would surface as `none`. -/
def mkTable (n : Nat) (m : Int) : Option (List Fork × List Phil) :=
  let forks := (List.range n).map Fork.init
  match (List.range n).mapM (fun i =>
      match forks[i]?, forks[(i + 1) % n]? with
      | some lf, some rf => some (Phil.init i lf.index rf.index m)
      | _, _ => none) with
  | some philosophers => some (forks, philosophers)
  | none => none

/-- Fork `f` is currently held by philosopher `a`. -/
def heldBy (f : Fork) (a : Nat) : Prop :=
  f.picked_up = true ∧ f.owner = (a : Int)

/-- Control states in which the thread holds its left fork. -/
def holdsLeft : PC → Bool
  | .sleepL | .acqRight | .decSpag | .setEatT | .sleepEat | .setEatF
  | .relRight | .relLeft => true
  | _ => false

/-- Control states in which the thread holds its right fork. -/
def holdsRight : PC → Bool
  | .decSpag | .setEatT | .sleepEat | .setEatF | .relRight => true
  | _ => false

/-- Control states of one think/eat cycle reached only after the loop
guard `spaghetti > 0` succeeded and before the decrement. -/
def preDec : PC → Bool
  | .thinking | .acqLeft | .sleepL | .acqRight | .decSpag => true
  | _ => false

/-- Per-philosopher ownership invariant: correct ring wiring, held
forks where the control state says so, and `eating` only inside the
critical section. -/
def PhilInv (n : Nat) (s : Sys) (i : Nat) : Prop :=
  (s.phils i).index = i ∧
  (s.phils i).left = i ∧
  (s.phils i).right = (i + 1) % n ∧
  (s.phils i).left ≠ (s.phils i).right ∧
  (holdsLeft (s.phils i).pc = true → heldBy (s.forks (s.phils i).left) i) ∧
  (holdsRight (s.phils i).pc = true → heldBy (s.forks (s.phils i).right) i) ∧
  ((s.phils i).eating = true → (s.phils i).pc = .sleepEat ∨ (s.phils i).pc = .setEatF)

/-- System-wide ownership invariant. -/
def SysInv (n : Nat) (s : Sys) : Prop :=
  ∀ i, i < n → PhilInv n s i

/-- Per-philosopher bookkeeping for the remaining units. -/
def SpagInvP (p : Phil) : Prop :=
  0 ≤ p.spaghetti ∧
  (preDec p.pc = true → 1 ≤ p.spaghetti) ∧
  (p.pc = .done → p.spaghetti = 0)

/-- System-wide remaining-units invariant. -/
def SpagInv (n : Nat) (s : Sys) : Prop :=
  ∀ i, i < n → SpagInvP (s.phils i)

/-- Observable projection of one philosopher and its two forks, used to
record execution traces. -/
structure Obs where
  leftUp : Bool
  leftOwner : Int
  rightUp : Bool
  rightOwner : Int
  eating : Bool
  spaghetti : Int
  pc : PC
deriving DecidableEq, Repr

/-- Reads the observable projection of philosopher `i`. -/
def observe (s : Sys) (i : Nat) : Obs :=
  { leftUp := (s.forks (s.phils i).left).picked_up,
    leftOwner := (s.forks (s.phils i).left).owner,
    rightUp := (s.forks (s.phils i).right).picked_up,
    rightOwner := (s.forks (s.phils i).right).owner,
    eating := (s.phils i).eating,
    spaghetti := (s.phils i).spaghetti,
    pc := (s.phils i).pc }

/-- State reached from `initSys 5 7` after philosopher 0 runs up to the
start of its consumption sleep (it is eating and holds forks 0 and 1). -/
def eatingState : Sys :=
  runSched (initSys 5 7) [0, 0, 0, 0, 0, 0, 0]

/-- `eatingState` after the watchdog forcibly releases fork 1, the
right fork philosopher 0 is eating with. -/
def corruptedState : Sys :=
  forceRelease eatingState 1

/-! ### Lemmas about the fork operations -/

/-- A freshly constructed fork satisfies the free-implies-unowned
invariant. -/
lemma Fork.freeInv_init (i : Nat) : (Fork.init i).freeInv := by
  intro _
  rfl

/-- An acquired fork satisfies the invariant (vacuously: it is not
free). -/
lemma Fork.freeInv_call (f : Fork) (o : Int) : (f.call o).freeInv := by
  intro h
  simp [Fork.call] at h

/-- `Fork.__exit__` preserves the invariant. -/
lemma Fork.freeInv_exit (f : Fork) (h : f.freeInv) : f.exit.freeInv := by
  unfold Fork.exit
  split
  · intro _
    rfl
  · exact h

/-- Any sequence of acquire/release operations preserves the
invariant. -/
lemma Fork.freeInv_foldl (ops : List ForkOp) (f : Fork) (h : f.freeInv) :
    (ops.foldl Fork.applyOp f).freeInv := by
  induction ops generalizing f with
  | nil => exact h
  | cons op rest ih =>
      cases op with
      | call o => exact ih _ (Fork.freeInv_call f o)
      | exit => exact ih _ (Fork.freeInv_exit f h)

/-- `Fork.__exit__` on a fork that is not picked up changes nothing. -/
lemma Fork.exit_free (f : Fork) (h : f.picked_up = false) : f.exit = f := by
  unfold Fork.exit
  rw [h]
  simp

/-! ### Lemmas about one iteration of the watchdog loop -/

/-- Healthy sample (1 or 2 eating): the stall counter resets and the
forks are untouched. -/
lemma cfb_healthy (c : Nat) (forks : List Fork) (t r : Nat)
    (h : c = 1 ∨ c = 2) :
    check_forks_body c forks t r = some (forks, 0, false) := by
  unfold check_forks_body
  rw [if_pos h]

/-- Unhealthy sample below the threshold: the counter increments, the
forks are untouched. -/
lemma cfb_wait (c : Nat) (forks : List Fork) (t r : Nat)
    (h : ¬(c = 1 ∨ c = 2)) (ht : t + 1 ≤ 15) :
    check_forks_body c forks t r = some (forks, t + 1, false) := by
  unfold check_forks_body
  rw [if_neg h, if_neg (by omega)]

/-- On a nonempty range, the modelled `random.randint(0, n-1)` returns
`r % n`. -/
lemma randint_pos (n r : Nat) (hn : 1 ≤ n) :
    randint 0 ((n : Int) - 1) r = some ((r % n : Nat) : Int) := by
  unfold randint
  rw [if_pos (by omega)]
  congr 1
  have : (n : Int) - 1 - 0 + 1 = (n : Int) := by omega
  rw [this]
  push_cast
  omega

/-- On an empty range, the modelled `random.randint(0, -1)` fails, as
the Python call raises `ValueError`. -/
lemma randint_empty (r : Nat) : randint 0 ((0 : Int) - 1) r = none := by
  unfold randint
  rw [if_neg (by omega)]

/-- Unhealthy sample with the counter crossing the threshold and a
nonempty fork list: forced release of fork `r % N` and counter reset. -/
lemma cfb_fire (c : Nat) (forks : List Fork) (t r : Nat)
    (h : ¬(c = 1 ∨ c = 2)) (ht : 15 < t + 1) (hf : 1 ≤ forks.length) :
    check_forks_body c forks t r =
      some (forks.set (r % forks.length)
              (Fork.exit (forks.getD (r % forks.length) (Fork.init 0))), 0, true) := by
  unfold check_forks_body
  rw [if_neg h, if_pos (by omega), randint_pos forks.length r hf]
  have hk : ((r : Int) % (forks.length : Int)).toNat = r % forks.length := by omega
  simp [hk]

/-- Unhealthy sample with the counter crossing the threshold and an
empty fork list: the random selection fails. -/
lemma cfb_fire_empty (c : Nat) (t r : Nat)
    (h : ¬(c = 1 ∨ c = 2)) (ht : 15 < t + 1) :
    check_forks_body c ([] : List Fork) t r = none := by
  unfold check_forks_body
  rw [if_neg h, if_pos (by omega)]
  have : (([] : List Fork).length : Int) - 1 = (0 : Int) - 1 := by simp
  rw [this, randint_empty]

/-- The watchdog reads the philosophers only through their `eating`
flags. -/
lemma eatingCount_congr (ps ps2 : List Phil)
    (h : ps.map Phil.eating = ps2.map Phil.eating) :
    eatingCount ps = eatingCount ps2 := by
  unfold eatingCount
  have h1 : ps.countP (fun p => p.eating) = (ps.map Phil.eating).countP id := by
    rw [List.countP_map]
    rfl
  have h2 : ps2.countP (fun p => p.eating) = (ps2.map Phil.eating).countP id := by
    rw [List.countP_map]
    rfl
  rw [h1, h2, h]

/-- As long as every sampled count is unhealthy and the counter stays
at or below the threshold, the watchdog only counts: no forced release,
forks untouched. -/
lemma wdExec_no_fire (counts rands : Nat → Nat) (forks : List Fork)
    (k : Nat) (hk : k ≤ 15)
    (hu : ∀ i, i < k → ¬(counts i = 1 ∨ counts i = 2)) :
    wdExec counts rands forks k = some (forks, k, 0) := by
  induction k with
  | zero => rfl
  | succ k ih =>
      have hrec := ih (by omega) (fun i hi => hu i (by omega))
      have hb := cfb_wait (counts k) forks k (rands k) (hu k (by omega)) (by omega)
      unfold wdExec
      rw [hrec]
      simp [hb]

/-! ### C5 and C6: the fork-level claims -/

/-- C5: every fork satisfies `locked = false → owner = none` (`-1`): the
invariant holds at construction, is preserved by acquire and by
release, and hence by every sequence of acquire/release operations
starting from a fresh fork. -/
theorem C5_fork_invariant (i : Nat) (o : Int) (f : Fork) (ops : List ForkOp)
    (hf : f.freeInv) :
    (Fork.init i).freeInv ∧ (f.call o).freeInv ∧ f.exit.freeInv ∧
      ((ops.foldl Fork.applyOp (Fork.init i)).freeInv) :=
  ⟨Fork.freeInv_init i, Fork.freeInv_call f o, Fork.freeInv_exit f hf,
    Fork.freeInv_foldl ops (Fork.init i) (Fork.freeInv_init i)⟩

/-- Witness for C5 at a concrete fork and operation sequence. -/
theorem C5_fork_invariant_witness :
    (Fork.init 0).freeInv ∧ ((Fork.init 1).call 3).freeInv ∧
      (Fork.init 1).exit.freeInv ∧
      (([ForkOp.call 2, ForkOp.exit].foldl Fork.applyOp (Fork.init 0)).freeInv) :=
  C5_fork_invariant 0 3 (Fork.init 1) [ForkOp.call 2, ForkOp.exit]
    (by intro _; rfl)

/-- C6: releasing a fork that is not locked is a no-op: state unchanged
and no error; releasing a free fork twice in a row leaves it free both
times. -/
theorem C6_release_idempotent (f : Fork) (h : f.picked_up = false) :
    f.exit = f ∧ f.exit.exit = f ∧ f.exit.picked_up = false := by
  have h1 : f.exit = f := Fork.exit_free f h
  refine ⟨h1, ?_, ?_⟩
  · rw [h1, h1]
  · rw [h1, h]

/-- Witness for C6 at a concrete free fork. -/
theorem C6_release_idempotent_witness :
    (Fork.init 4).exit = Fork.init 4 ∧ (Fork.init 4).exit.exit = Fork.init 4 ∧
      (Fork.init 4).exit.picked_up = false :=
  C6_release_idempotent (Fork.init 4) rfl

/-! ### C2: the watchdog step -/

/-- C2: one watchdog sample: a count of exactly 1 or 2 eating
philosophers resets the stall counter to 0; otherwise the counter is
incremented, and once it exceeds 15 the watchdog selects the fork
`r % N` (every index below `N` being reachable by some draw, uniformly),
performs a forced release on it, and resets the counter to 0. -/
theorem C2_watchdog_step (ps : List Phil) (forks : List Fork) (t r : Nat) :
    (eatingCount ps = 1 ∨ eatingCount ps = 2 →
        check_forks_step ps forks t r = some (forks, 0, false)) ∧
    (¬(eatingCount ps = 1 ∨ eatingCount ps = 2) → t + 1 ≤ 15 →
        check_forks_step ps forks t r = some (forks, t + 1, false)) ∧
    (¬(eatingCount ps = 1 ∨ eatingCount ps = 2) → 15 < t + 1 → 1 ≤ forks.length →
        check_forks_step ps forks t r =
          some (forks.set (r % forks.length)
                  (Fork.exit (forks.getD (r % forks.length) (Fork.init 0))), 0, true) ∧
          r % forks.length < forks.length) ∧
    (∀ j, j < forks.length → j % forks.length = j) := by
  refine ⟨?_, ?_, ?_, ?_⟩
  · intro h
    exact cfb_healthy _ forks t r h
  · intro h ht
    exact cfb_wait _ forks t r h ht
  · intro h ht hf
    exact ⟨cfb_fire _ forks t r h ht hf, Nat.mod_lt r (by omega)⟩
  · intro j hj
    exact Nat.mod_eq_of_lt hj

/-- Witness for C2: a 0-eating sample with the counter at the
threshold forces a release of fork `3 % 2 = 1` out of two forks. -/
theorem C2_watchdog_step_witness :
    check_forks_step [Phil.init 0 0 1 7] [Fork.init 0, Fork.init 1] 15 3 =
      some ([Fork.init 0, Fork.init 1].set 1
              (Fork.exit ([Fork.init 0, Fork.init 1].getD 1 (Fork.init 0))), 0, true) ∧
      (3 : Nat) % 2 < 2 :=
  (C2_watchdog_step [Phil.init 0 0 1 7] [Fork.init 0, Fork.init 1] 15 3).2.2.1
    (by decide) (by decide) (by decide)

/-! ### C9: the watchdog frame -/

/-- C9: the watchdog reads the philosophers only through their `eating`
flags (same flags, same behaviour), its forced release leaves every
philosopher record — in particular `spaghetti` — unchanged, and a
watchdog iteration either leaves the fork list unchanged or rewrites
exactly the one selected fork. -/
theorem C9_watchdog_frame (ps ps2 : List Phil) (forks : List Fork) (t r : Nat)
    (s : Sys) (k : Nat)
    (h : ps.map Phil.eating = ps2.map Phil.eating) :
    check_forks_step ps forks t r = check_forks_step ps2 forks t r ∧
    (forceRelease s k).phils = s.phils ∧
    (∀ fs2 t2 b, check_forks_step ps forks t r = some (fs2, t2, b) →
        fs2 = forks ∨
        ∃ j, j < forks.length ∧
          fs2 = forks.set j (Fork.exit (forks.getD j (Fork.init 0)))) := by
  refine ⟨?_, rfl, ?_⟩
  · unfold check_forks_step
    rw [eatingCount_congr ps ps2 h]
  · intro fs2 t2 b hstep
    by_cases hc : eatingCount ps = 1 ∨ eatingCount ps = 2
    · rw [check_forks_step, cfb_healthy _ forks t r hc] at hstep
      left
      injection hstep with h1
      exact (Prod.mk.injEq _ _ _ _).mp h1 |>.1.symm
    · by_cases ht : t + 1 ≤ 15
      · rw [check_forks_step, cfb_wait _ forks t r hc ht] at hstep
        left
        injection hstep with h1
        exact (Prod.mk.injEq _ _ _ _).mp h1 |>.1.symm
      · rcases Nat.eq_zero_or_pos forks.length with hlen | hlen
        · rw [check_forks_step, List.length_eq_zero.mp hlen,
            cfb_fire_empty _ t r hc (by omega)] at hstep
          exact absurd hstep (by simp)
        · rw [check_forks_step, cfb_fire _ forks t r hc (by omega) hlen] at hstep
          right
          refine ⟨r % forks.length, Nat.mod_lt r (by omega), ?_⟩
          injection hstep with h1
          exact (Prod.mk.injEq _ _ _ _).mp h1 |>.1.symm

/-- Witness for C9: two philosopher lists that differ in `spaghetti`
but agree on `eating` give the same watchdog behaviour, and a forced
release on a concrete state leaves the philosophers untouched. -/
theorem C9_watchdog_frame_witness :
    check_forks_step [Phil.init 0 0 1 5] [Fork.init 0] 0 0 =
      check_forks_step [Phil.init 0 0 1 9] [Fork.init 0] 0 0 ∧
    (forceRelease (initSys 5 7) 1).phils = (initSys 5 7).phils ∧
    ([Fork.init 0] = [Fork.init 0] ∨
      ∃ j, j < ([Fork.init 0] : List Fork).length ∧
        ([Fork.init 0] : List Fork) =
          [Fork.init 0].set j (Fork.exit ([Fork.init 0].getD j (Fork.init 0)))) := by
  have h := C9_watchdog_frame [Phil.init 0 0 1 5] [Phil.init 0 0 1 9]
    [Fork.init 0] 0 0 (initSys 5 7) 1 (by decide)
  exact ⟨h.1, h.2.1, h.2.2 [Fork.init 0] 1 false (by decide)⟩

/-! ### C10: the forced-release index is always in range -/

/-- C10: when the watchdog intervenes on a nonempty fork list, the
random index is `r % N < N`, so the list access succeeds and the
iteration returns a result; on an empty fork list the random selection
itself fails (`random.randint(0, -1)` raises), surfacing as `none`. -/
theorem C10_index_in_range (ps : List Phil) (forks : List Fork) (t r : Nat)
    (hc : ¬(eatingCount ps = 1 ∨ eatingCount ps = 2)) (ht : 15 < t + 1) :
    (1 ≤ forks.length →
        randint 0 ((forks.length : Int) - 1) r = some ((r % forks.length : Nat) : Int) ∧
        r % forks.length < forks.length ∧
        (check_forks_step ps forks t r).isSome = true) ∧
    (forks = [] →
        randint 0 ((forks.length : Int) - 1) r = none ∧
        check_forks_step ps forks t r = none) := by
  constructor
  · intro hf
    refine ⟨randint_pos forks.length r hf, Nat.mod_lt r (by omega), ?_⟩
    rw [check_forks_step, cfb_fire _ forks t r hc ht hf]
    rfl
  · intro hf
    subst hf
    constructor
    · simpa using randint_empty r
    · rw [check_forks_step]
      exact cfb_fire_empty _ t r hc ht

/-- Witness for C10 on a two-fork list and on the empty list. -/
theorem C10_index_in_range_witness :
    (randint 0 (((2 : Nat) : Int) - 1) 5 = some (((5 % 2 : Nat) : Nat) : Int) ∧
      5 % 2 < 2 ∧
      (check_forks_step [] [Fork.init 0, Fork.init 1] 20 5).isSome = true) ∧
    (randint 0 ((([] : List Fork).length : Int) - 1) 5 = none ∧
      check_forks_step [] [] 20 5 = none) := by
  have h1 := (C10_index_in_range [] [Fork.init 0, Fork.init 1] 20 5
    (by decide) (by decide)).1 (by decide)
  have h2 := (C10_index_in_range [] [] 20 5 (by decide) (by decide)).2 rfl
  exact ⟨⟨h1.1, h1.2.1, h1.2.2⟩, h2⟩

/-! ### C3: stall recovery -/

/-- C3 as stated is false: after 16 unhealthy ticks the watchdog does
perform its forced release, but if the randomly selected fork is not
locked the release is a no-op, so no resource's locked flag transitions
from true to false.  Concretely: three free forks, sixteen ticks each
sampling 0 eating philosophers, draw 0: exactly one forced release is
performed (third component 1), yet the fork list is returned unchanged
and every fork was free throughout. -/
theorem C3_counterexample :
    wdExec (fun _ => 0) (fun _ => 0) [Fork.init 0, Fork.init 1, Fork.init 2] 16 =
      some ([Fork.init 0, Fork.init 1, Fork.init 2], 0, 1) ∧
    ([Fork.init 0, Fork.init 1, Fork.init 2] : List Fork).all
      (fun f => f.picked_up = false) = true := by
  constructor
  · decide
  · decide

/-- C3 amended: if the sampled count of eating philosophers stays
outside {1, 2} for 16 consecutive ticks of the watchdog loop (more than
the threshold of 15), the watchdog performs no forced release during
the first 15 ticks and exactly one forced release on the 16th tick, on
the in-range fork `rands 15 % N`; that fork's locked flag transitions
to false if it was locked, and the release is a no-op if it was
free. -/
theorem C3_stall_recovery (counts rands : Nat → Nat) (forks : List Fork)
    (hne : 1 ≤ forks.length)
    (hu : ∀ i, i < 16 → ¬(counts i = 1 ∨ counts i = 2)) :
    wdExec counts rands forks 15 = some (forks, 15, 0) ∧
    rands 15 % forks.length < forks.length ∧
    wdExec counts rands forks 16 =
      some (forks.set (rands 15 % forks.length)
              (Fork.exit (forks.getD (rands 15 % forks.length) (Fork.init 0))), 0, 1) ∧
    ((forks.getD (rands 15 % forks.length) (Fork.init 0)).picked_up = true →
        (Fork.exit (forks.getD (rands 15 % forks.length) (Fork.init 0))).picked_up = false) := by
  have h15 := wdExec_no_fire counts rands forks 15 (by omega)
    (fun i hi => hu i (by omega))
  refine ⟨h15, Nat.mod_lt _ (by omega), ?_, ?_⟩
  · have hb := cfb_fire (counts 15) forks 15 (rands 15) (hu 15 (by omega))
      (by omega) hne
    show wdExec counts rands forks (15 + 1) = _
    unfold wdExec
    rw [h15]
    simp [hb]
  · intro hp
    unfold Fork.exit
    rw [if_pos hp]

/-- Witness for C3 amended: one initially locked fork, sixteen
0-eating ticks: the forced release on the 16th tick unlocks it. -/
theorem C3_stall_recovery_witness :
    wdExec (fun _ => 0) (fun _ => 0) [(Fork.init 0).call 2] 15 =
      some ([(Fork.init 0).call 2], 15, 0) ∧
    (0 : Nat) % 1 < 1 ∧
    wdExec (fun _ => 0) (fun _ => 0) [(Fork.init 0).call 2] 16 =
      some ([(Fork.init 0).call 2].set (0 % 1)
              (Fork.exit ([(Fork.init 0).call 2].getD (0 % 1) (Fork.init 0))), 0, 1) ∧
    ((([(Fork.init 0).call 2].getD (0 % 1) (Fork.init 0))).picked_up = true →
        (Fork.exit ([(Fork.init 0).call 2].getD (0 % 1) (Fork.init 0))).picked_up = false) :=
  C3_stall_recovery (fun _ => 0) (fun _ => 0) [(Fork.init 0).call 2]
    (by decide) (fun i _ => by simp)

/-! ### C8: no actor-count validation at construction -/

/-- Mapping a function that succeeds on every element succeeds as a
whole (`Option` monad). -/
lemma mapM_isSome_of_forall {α β : Type} (f : α → Option β) :
    ∀ l : List α, (∀ a, a ∈ l → (f a).isSome = true) →
      (l.mapM f).isSome = true := by
  intro l
  induction l with
  | nil => intro _; rfl
  | cons a l ih =>
      intro h
      rcases Option.isSome_iff_exists.mp (h a (by simp)) with ⟨b, hb⟩
      rcases Option.isSome_iff_exists.mp
        (ih (fun x hx => h x (List.mem_cons_of_mem a hx))) with ⟨bs, hbs⟩
      unfold List.mapM at hbs
      rw [List.mapM_cons]
      simp [hb, hbs]

/-- C8 counterexample: the code performs no `actor_count < 2` check;
assembling the table with a single actor succeeds without any error,
wiring that actor's left and right references to the same single
fork. -/
theorem C8_counterexample :
    mkTable 1 7 = some ([Fork.init 0], [Phil.init 0 0 0 7]) := by
  decide

/-- C8 amended: construction never fails for any actor count: `main`
contains no validation of the number of actors, so assembling the table
succeeds for every `n`, including `n < 2`. -/
theorem C8_no_validation (n : Nat) (m : Int) :
    (mkTable n m).isSome = true := by
  unfold mkTable
  have hlen : ((List.range n).map Fork.init).length = n := by simp
  have h : ∀ i, i ∈ List.range n →
      ((match ((List.range n).map Fork.init)[i]?,
              ((List.range n).map Fork.init)[(i + 1) % n]? with
        | some lf, some rf => some (Phil.init i lf.index rf.index m)
        | _, _ => none) : Option Phil).isSome = true := by
    intro i hi
    have hi2 : i < n := List.mem_range.mp hi
    have hn : 0 < n := by omega
    have h1 : i < ((List.range n).map Fork.init).length := by omega
    have h2 : (i + 1) % n < ((List.range n).map Fork.init).length := by
      rw [hlen]
      exact Nat.mod_lt _ hn
    rw [List.getElem?_eq_getElem h1, List.getElem?_eq_getElem h2]
    rfl
  rcases Option.isSome_iff_exists.mp
    (mapM_isSome_of_forall _ (List.range n) h) with ⟨phs, hphs⟩
  simp only [hphs]
  rfl

/-! ### Lemmas about the philosopher small-step semantics -/

/-- Updating position `k` leaves position `k` at the new value. -/
lemma updP_same (ps : Nat → Phil) (k : Nat) (p : Phil) : updP ps k p k = p := by
  simp [updP]

/-- Updating position `k` leaves other positions unchanged. -/
lemma updP_ne (ps : Nat → Phil) (k : Nat) (p : Phil) (j : Nat) (h : j ≠ k) :
    updP ps k p j = ps j := by
  simp [updP, h]

/-- Updating fork `k` leaves fork `k` at the new value. -/
lemma updF_same (fs : Nat → Fork) (k : Nat) (f : Fork) : updF fs k f k = f := by
  simp [updF]

/-- Updating fork `k` leaves other forks unchanged. -/
lemma updF_ne (fs : Nat → Fork) (k : Nat) (f : Fork) (j : Nat) (h : j ≠ k) :
    updF fs k f j = fs j := by
  simp [updF, h]

/-- A step of thread `i` does not touch any other philosopher record. -/
lemma philStep_phils_other {s s2 : Sys} {i : Nat} (h : philStep s i = some s2)
    {j : Nat} (hj : j ≠ i) : s2.phils j = s.phils j := by
  cases hpc : (s.phils i).pc <;> simp only [philStep, hpc] at h
  case loopHead =>
      split at h <;> (injection h with h2; subst h2; exact updP_ne _ _ _ _ hj)
  case acqLeft =>
      split at h
      · exact absurd h (by simp)
      · injection h with h2
        subst h2
        exact updP_ne _ _ _ _ hj
  case acqRight =>
      split at h
      · exact absurd h (by simp)
      · injection h with h2
        subst h2
        exact updP_ne _ _ _ _ hj
  case done =>
      exact absurd h (by simp)
  all_goals
    first
      | (injection h with h2; subst h2; exact updP_ne _ _ _ _ hj)

/-- A step of thread `i` changes `spaghetti` of `i` exactly when the
thread executes `self.spaghetti -= 1` (control state `decSpag`), and
then by exactly one. -/
lemma philStep_spag_self {s s2 : Sys} {i : Nat} (h : philStep s i = some s2) :
    ((s.phils i).pc = .decSpag ∧
      (s2.phils i).spaghetti = (s.phils i).spaghetti - 1 ∧
      (s2.phils i).pc = .setEatT) ∨
    ((s.phils i).pc ≠ .decSpag ∧
      (s2.phils i).spaghetti = (s.phils i).spaghetti) := by
  cases hpc : (s.phils i).pc <;> simp only [philStep, hpc] at h
  case decSpag =>
      left
      injection h with h2
      subst h2
      exact ⟨rfl, by simp [updP_same], by simp [updP_same]⟩
  case loopHead =>
      right
      refine ⟨by simp [hpc], ?_⟩
      split at h <;> (injection h with h2; subst h2; simp [updP_same])
  case acqLeft =>
      right
      refine ⟨by simp [hpc], ?_⟩
      split at h
      · exact absurd h (by simp)
      · injection h with h2
        subst h2
        simp [updP_same]
  case acqRight =>
      right
      refine ⟨by simp [hpc], ?_⟩
      split at h
      · exact absurd h (by simp)
      · injection h with h2
        subst h2
        simp [updP_same]
  case done =>
      exact absurd h (by simp)
  all_goals
    right
  all_goals
    (refine ⟨by simp [hpc], ?_⟩;
      injection h with h2; subst h2; simp [updP_same])

/-- One philosopher step preserves the remaining-units bookkeeping of
the stepping thread. -/
lemma spagInvP_step {s s2 : Sys} {i : Nat} (h : philStep s i = some s2)
    (hp : SpagInvP (s.phils i)) : SpagInvP (s2.phils i) := by
  obtain ⟨h0, h1, h2⟩ := hp
  cases hpc : (s.phils i).pc <;> simp only [philStep, hpc] at h
  case loopHead =>
      split at h
      case isTrue hsp =>
          injection h with h3
          subst h3
          exact ⟨by simp [updP_same]; omega, by simp [updP_same, preDec]; omega,
            by simp [updP_same]⟩
      case isFalse hsp =>
          injection h with h3
          subst h3
          exact ⟨by simp [updP_same]; omega, by simp [updP_same, preDec],
            by simp [updP_same]; omega⟩
  case thinking =>
      injection h with h3
      subst h3
      have hs := h1 (by rw [hpc]; rfl)
      exact ⟨by simp [updP_same]; omega, by simp [updP_same, preDec]; omega,
        by simp [updP_same]⟩
  case acqLeft =>
      split at h
      · exact absurd h (by simp)
      · injection h with h3
        subst h3
        have hs := h1 (by rw [hpc]; rfl)
        exact ⟨by simp [updP_same]; omega, by simp [updP_same, preDec]; omega,
          by simp [updP_same]⟩
  case sleepL =>
      injection h with h3
      subst h3
      have hs := h1 (by rw [hpc]; rfl)
      exact ⟨by simp [updP_same]; omega, by simp [updP_same, preDec]; omega,
        by simp [updP_same]⟩
  case acqRight =>
      split at h
      · exact absurd h (by simp)
      · injection h with h3
        subst h3
        have hs := h1 (by rw [hpc]; rfl)
        exact ⟨by simp [updP_same]; omega, by simp [updP_same, preDec]; omega,
          by simp [updP_same]⟩
  case decSpag =>
      injection h with h3
      subst h3
      have hs := h1 (by rw [hpc]; rfl)
      exact ⟨by simp [updP_same]; omega, by simp [updP_same, preDec],
        by simp [updP_same]⟩
  case setEatT =>
      injection h with h3
      subst h3
      exact ⟨by simp [updP_same]; omega, by simp [updP_same, preDec],
        by simp [updP_same]⟩
  case sleepEat =>
      injection h with h3
      subst h3
      exact ⟨by simp [updP_same]; omega, by simp [updP_same, preDec],
        by simp [updP_same]⟩
  case setEatF =>
      injection h with h3
      subst h3
      exact ⟨by simp [updP_same]; omega, by simp [updP_same, preDec],
        by simp [updP_same]⟩
  case relRight =>
      injection h with h3
      subst h3
      exact ⟨by simp [updP_same]; omega, by simp [updP_same, preDec],
        by simp [updP_same]⟩
  case relLeft =>
      injection h with h3
      subst h3
      exact ⟨by simp [updP_same]; omega, by simp [updP_same, preDec],
        by simp [updP_same]⟩
  case done =>
      exact absurd h (by simp)

/-- Every transition, watchdog forced release included, preserves the
remaining-units bookkeeping of every thread. -/
lemma spagInv_step {n : Nat} {s s2 : Sys} (ht : SysTrans n s s2)
    (hinv : SpagInv n s) : SpagInv n s2 := by
  cases ht with
  | force k hk =>
      intro j hj
      exact hinv j hj
  | phil i hi h =>
      intro j hj
      by_cases hji : j = i
      · subst hji
        exact spagInvP_step h (hinv j hj)
      · rw [philStep_phils_other h hji]
        exact hinv j hj

/-- In every reachable state of a table whose actors start with `m ≥ 0`
units, the remaining-units bookkeeping holds for every thread. -/
lemma spagInv_reachable (n : Nat) (m : Int) (hm : 0 ≤ m) (s : Sys)
    (hr : Reachable n (initSys n m) s) : SpagInv n s := by
  unfold Reachable at hr
  induction hr with
  | refl =>
      intro j hj
      exact ⟨hm, by simp [initSys, Phil.init, preDec], by simp [initSys, Phil.init]⟩
  | tail hab hbc ih =>
      exact spagInv_step hbc ih

/-! ### C4: monotonic consumption -/

/-- C4: in every reachable state of a table whose actors start with
`m ≥ 0` remaining units, every actor's count is non-negative, is
exactly 0 once its run loop has terminated, and across any single
transition it never increases and changes only when that actor itself
executes its decrement at entry to the doubly-held state (control
state `decSpag`, right after acquiring the second fork), and then by
exactly one. -/
theorem C4_monotonic_consumption (n : Nat) (m : Int) (s s2 : Sys) (i : Nat)
    (hm : 0 ≤ m) (hr : Reachable n (initSys n m) s) (hi : i < n)
    (ht : SysTrans n s s2) :
    0 ≤ (s.phils i).spaghetti ∧
    ((s.phils i).pc = .done → (s.phils i).spaghetti = 0) ∧
    (s2.phils i).spaghetti ≤ (s.phils i).spaghetti ∧
    ((s2.phils i).spaghetti ≠ (s.phils i).spaghetti →
      (s.phils i).pc = .decSpag ∧
      (s2.phils i).spaghetti = (s.phils i).spaghetti - 1 ∧
      (s2.phils i).pc = .setEatT) := by
  have hinv := spagInv_reachable n m hm s hr i hi
  obtain ⟨h0, h1, h2⟩ := hinv
  have hstep :
      (s2.phils i).spaghetti ≤ (s.phils i).spaghetti ∧
      ((s2.phils i).spaghetti ≠ (s.phils i).spaghetti →
        (s.phils i).pc = .decSpag ∧
        (s2.phils i).spaghetti = (s.phils i).spaghetti - 1 ∧
        (s2.phils i).pc = .setEatT) := by
    cases ht with
    | force k hk =>
        have hph : (forceRelease s k).phils i = s.phils i := rfl
        rw [hph]
        exact ⟨le_refl _, fun hne => absurd rfl hne⟩
    | phil j hj h =>
        by_cases hji : i = j
        · subst hji
          rcases philStep_spag_self h with ⟨hd, hs, hp⟩ | ⟨hd, hs⟩
          · exact ⟨by omega, fun _ => ⟨hd, hs, hp⟩⟩
          · exact ⟨by omega, fun hne => absurd hs hne⟩
        · rw [philStep_phils_other h hji]
          exact ⟨le_refl _, fun hne => absurd rfl hne⟩
  exact ⟨h0, h2, hstep⟩

/-- Witness for C4 at the initial state of the reference configuration
(5 actors, 7 units each) and a concrete transition. -/
theorem C4_monotonic_consumption_witness :
    0 ≤ ((initSys 5 7).phils 0).spaghetti ∧
    (((initSys 5 7).phils 0).pc = PC.done → ((initSys 5 7).phils 0).spaghetti = 0) ∧
    ((forceRelease (initSys 5 7) 0).phils 0).spaghetti ≤ ((initSys 5 7).phils 0).spaghetti ∧
    (((forceRelease (initSys 5 7) 0).phils 0).spaghetti ≠ ((initSys 5 7).phils 0).spaghetti →
      ((initSys 5 7).phils 0).pc = PC.decSpag ∧
      ((forceRelease (initSys 5 7) 0).phils 0).spaghetti = ((initSys 5 7).phils 0).spaghetti - 1 ∧
      ((forceRelease (initSys 5 7) 0).phils 0).pc = PC.setEatT) :=
  C4_monotonic_consumption 5 7 (initSys 5 7) (forceRelease (initSys 5 7) 0) 0
    (by omega) Relation.ReflTransGen.refl (by omega) (SysTrans.force 0 (by omega))

/-! ### C7: the order of operations inside eat() -/

/-- C7 as stated is false: the claim puts `eating = true` before the
decrement of the remaining units, but `eat()` runs
`self.spaghetti -= 1` first and `self.eating = True` second.  In the
solo run of actor 0 (two-actor table, one unit), the decrement to 0
happens at a state where `eating` is still false, and every state with
`eating = true` already shows 0 units: no state ever shows
`eating = true` with the unit still undecremented, which the claimed
order would require. -/
theorem C7_counterexample :
    (runTrace (initSys 2 1) [0, 0, 0, 0, 0, 0, 0]).map
        (fun s => ((s.phils 0).eating, (s.phils 0).spaghetti)) =
      [(false, 1), (false, 1), (false, 1), (false, 1), (false, 1), (false, 1),
       (false, 0), (true, 0)] := by
  decide

/-- C7 amended: `eat()` performs, in this order: acquire left
(blocking); suspend holding only left; acquire right (blocking);
decrement the remaining units; set `eating = true`; suspend for the
consumption duration; set `eating = false`; release right; release
left (reverse order of acquisition).  The full observable trace of one
complete cycle of actor 0 on a fresh two-actor table with one unit
exhibits exactly this order. -/
theorem C7_eat_order :
    (runTrace (initSys 2 1) [0, 0, 0, 0, 0, 0, 0, 0, 0, 0, 0, 0]).map
        (fun s => observe s 0) =
      [{ leftUp := false, leftOwner := -1, rightUp := false, rightOwner := -1,
         eating := false, spaghetti := 1, pc := .loopHead },
       { leftUp := false, leftOwner := -1, rightUp := false, rightOwner := -1,
         eating := false, spaghetti := 1, pc := .thinking },
       { leftUp := false, leftOwner := -1, rightUp := false, rightOwner := -1,
         eating := false, spaghetti := 1, pc := .acqLeft },
       { leftUp := true, leftOwner := 0, rightUp := false, rightOwner := -1,
         eating := false, spaghetti := 1, pc := .sleepL },
       { leftUp := true, leftOwner := 0, rightUp := false, rightOwner := -1,
         eating := false, spaghetti := 1, pc := .acqRight },
       { leftUp := true, leftOwner := 0, rightUp := true, rightOwner := 0,
         eating := false, spaghetti := 1, pc := .decSpag },
       { leftUp := true, leftOwner := 0, rightUp := true, rightOwner := 0,
         eating := false, spaghetti := 0, pc := .setEatT },
       { leftUp := true, leftOwner := 0, rightUp := true, rightOwner := 0,
         eating := true, spaghetti := 0, pc := .sleepEat },
       { leftUp := true, leftOwner := 0, rightUp := true, rightOwner := 0,
         eating := true, spaghetti := 0, pc := .setEatF },
       { leftUp := true, leftOwner := 0, rightUp := true, rightOwner := 0,
         eating := false, spaghetti := 0, pc := .relRight },
       { leftUp := true, leftOwner := 0, rightUp := false, rightOwner := -1,
         eating := false, spaghetti := 0, pc := .relLeft },
       { leftUp := false, leftOwner := -1, rightUp := false, rightOwner := -1,
         eating := false, spaghetti := 0, pc := .loopHead },
       { leftUp := false, leftOwner := -1, rightUp := false, rightOwner := -1,
         eating := false, spaghetti := 0, pc := .done }] := by
  decide

/-! ### Lemmas for the ownership invariant -/

/-- On a ring of at least two positions, a position differs from its
successor. -/
lemma ring_ne (n : Nat) (hn : 2 ≤ n) (i : Nat) (hi : i < n) : i ≠ (i + 1) % n := by
  rcases Nat.lt_or_ge (i + 1) n with h | h
  · rw [Nat.mod_eq_of_lt h]
    omega
  · have he : i + 1 = n := by omega
    rw [he, Nat.mod_self]
    omega

/-- The per-philosopher invariant transfers to a state with the same
philosopher record and the same forks. -/
lemma PhilInv_update_phils {n : Nat} {s s2 : Sys} {i : Nat}
    (hp : s2.phils i = s.phils i) (hf : s2.forks = s.forks)
    (h : PhilInv n s i) : PhilInv n s2 i := by
  unfold PhilInv
  rw [hp, hf]
  exact h

/-- The per-philosopher invariant survives an update of a fork that was
free: the invariant can only mention that fork as held, which
contradicts its freeness. -/
lemma PhilInv_update_free {n : Nat} {s s2 : Sys} {i k : Nat} {f2 : Fork}
    (hp : s2.phils i = s.phils i) (hf : s2.forks = updF s.forks k f2)
    (hfree : (s.forks k).picked_up = false)
    (h : PhilInv n s i) : PhilInv n s2 i := by
  obtain ⟨ix, il, ir, ilr, ihl, ihr, ieat⟩ := h
  refine ⟨by rw [hp]; exact ix, by rw [hp]; exact il, by rw [hp]; exact ir,
    by rw [hp]; exact ilr, ?_, ?_, by rw [hp]; exact ieat⟩
  · intro hc
    rw [hp] at hc ⊢
    rw [hf]
    by_cases hlk : (s.phils i).left = k
    · have hpk := (ihl hc).1
      rw [hlk, hfree] at hpk
      exact absurd hpk (by simp)
    · rw [updF_ne _ _ _ _ hlk]
      exact ihl hc
  · intro hc
    rw [hp] at hc ⊢
    rw [hf]
    by_cases hrk : (s.phils i).right = k
    · have hpk := (ihr hc).1
      rw [hrk, hfree] at hpk
      exact absurd hpk (by simp)
    · rw [updF_ne _ _ _ _ hrk]
      exact ihr hc

/-- The per-philosopher invariant of `i` survives an update of a fork
owned by a different philosopher `j`: the invariant can only mention
that fork as held by `i`, contradicting unique ownership. -/
lemma PhilInv_update_owned {n : Nat} {s s2 : Sys} {i j k : Nat} {f2 : Fork}
    (hij : i ≠ j)
    (hp : s2.phils i = s.phils i) (hf : s2.forks = updF s.forks k f2)
    (hown : (s.forks k).owner = (j : Int))
    (h : PhilInv n s i) : PhilInv n s2 i := by
  obtain ⟨ix, il, ir, ilr, ihl, ihr, ieat⟩ := h
  refine ⟨by rw [hp]; exact ix, by rw [hp]; exact il, by rw [hp]; exact ir,
    by rw [hp]; exact ilr, ?_, ?_, by rw [hp]; exact ieat⟩
  · intro hc
    rw [hp] at hc ⊢
    rw [hf]
    by_cases hlk : (s.phils i).left = k
    · have hio := (ihl hc).2
      rw [hlk, hown] at hio
      exact absurd (by exact_mod_cast hio.symm : i = j) hij
    · rw [updF_ne _ _ _ _ hlk]
      exact ihl hc
  · intro hc
    rw [hp] at hc ⊢
    rw [hf]
    by_cases hrk : (s.phils i).right = k
    · have hio := (ihr hc).2
      rw [hrk, hown] at hio
      exact absurd (by exact_mod_cast hio.symm : i = j) hij
    · rw [updF_ne _ _ _ _ hrk]
      exact ihr hc

/-- One philosopher step preserves the system-wide ownership
invariant. -/
lemma philStep_inv {n : Nat} {s s2 : Sys} {j : Nat} (hj : j < n)
    (h : philStep s j = some s2) (hinv : SysInv n s) : SysInv n s2 := by
  obtain ⟨jx, jl, jr, jlr, jhl, jhr, jeat⟩ := hinv j hj
  cases hpc : (s.phils j).pc <;> simp only [philStep, hpc] at h
  case loopHead =>
      split at h <;>
        (injection h with h2; subst h2; intro i hi; by_cases hij : i = j)
      · subst hij
        refine ⟨by simpa [updP_same] using jx, by simpa [updP_same] using jl,
          by simpa [updP_same] using jr, by simpa [updP_same] using jlr, ?_, ?_, ?_⟩
        · intro hc
          simp [updP_same, holdsLeft] at hc
        · intro hc
          simp [updP_same, holdsRight] at hc
        · intro he
          have hq := jeat (by simpa [updP_same] using he)
          rw [hpc] at hq
          simp at hq
      · exact PhilInv_update_phils (updP_ne _ _ _ _ hij) rfl (hinv i hi)
      · subst hij
        refine ⟨by simpa [updP_same] using jx, by simpa [updP_same] using jl,
          by simpa [updP_same] using jr, by simpa [updP_same] using jlr, ?_, ?_, ?_⟩
        · intro hc
          simp [updP_same, holdsLeft] at hc
        · intro hc
          simp [updP_same, holdsRight] at hc
        · intro he
          have hq := jeat (by simpa [updP_same] using he)
          rw [hpc] at hq
          simp at hq
      · exact PhilInv_update_phils (updP_ne _ _ _ _ hij) rfl (hinv i hi)
  case thinking =>
      injection h with h2
      subst h2
      intro i hi
      by_cases hij : i = j
      · subst hij
        refine ⟨by simpa [updP_same] using jx, by simpa [updP_same] using jl,
          by simpa [updP_same] using jr, by simpa [updP_same] using jlr, ?_, ?_, ?_⟩
        · intro hc
          simp [updP_same, holdsLeft] at hc
        · intro hc
          simp [updP_same, holdsRight] at hc
        · intro he
          have hq := jeat (by simpa [updP_same] using he)
          rw [hpc] at hq
          simp at hq
      · exact PhilInv_update_phils (updP_ne _ _ _ _ hij) rfl (hinv i hi)
  case acqLeft =>
      split at h
      case isTrue => exact absurd h (by simp)
      case isFalse hfree =>
          injection h with h2
          subst h2
          intro i hi
          by_cases hij : i = j
          · subst hij
            refine ⟨by simpa [updP_same] using jx, by simpa [updP_same] using jl,
              by simpa [updP_same] using jr, by simpa [updP_same] using jlr, ?_, ?_, ?_⟩
            · intro _
              simp [updP_same, updF_same, Fork.call, heldBy, jx]
            · intro hc
              simp [updP_same, holdsRight] at hc
            · intro he
              have hq := jeat (by simpa [updP_same] using he)
              rw [hpc] at hq
              simp at hq
          · exact PhilInv_update_free (updP_ne _ _ _ _ hij) rfl
              (by simpa using hfree) (hinv i hi)
  case sleepL =>
      injection h with h2
      subst h2
      intro i hi
      by_cases hij : i = j
      · subst hij
        refine ⟨by simpa [updP_same] using jx, by simpa [updP_same] using jl,
          by simpa [updP_same] using jr, by simpa [updP_same] using jlr, ?_, ?_, ?_⟩
        · intro _
          have hold := jhl (by rw [hpc]; rfl)
          simpa [updP_same] using hold
        · intro hc
          simp [updP_same, holdsRight] at hc
        · intro he
          have hq := jeat (by simpa [updP_same] using he)
          rw [hpc] at hq
          simp at hq
      · exact PhilInv_update_phils (updP_ne _ _ _ _ hij) rfl (hinv i hi)
  case acqRight =>
      split at h
      case isTrue => exact absurd h (by simp)
      case isFalse hfree =>
          injection h with h2
          subst h2
          intro i hi
          by_cases hij : i = j
          · subst hij
            refine ⟨by simpa [updP_same] using jx, by simpa [updP_same] using jl,
              by simpa [updP_same] using jr, by simpa [updP_same] using jlr, ?_, ?_, ?_⟩
            · intro _
              have hold := jhl (by rw [hpc]; rfl)
              simpa [updP_same, updF_ne _ _ _ _ jlr] using hold
            · intro _
              simp [updP_same, updF_same, Fork.call, heldBy, jx]
            · intro he
              have hq := jeat (by simpa [updP_same] using he)
              rw [hpc] at hq
              simp at hq
          · exact PhilInv_update_free (updP_ne _ _ _ _ hij) rfl
              (by simpa using hfree) (hinv i hi)
  case decSpag =>
      injection h with h2
      subst h2
      intro i hi
      by_cases hij : i = j
      · subst hij
        refine ⟨by simpa [updP_same] using jx, by simpa [updP_same] using jl,
          by simpa [updP_same] using jr, by simpa [updP_same] using jlr, ?_, ?_, ?_⟩
        · intro _
          have hold := jhl (by rw [hpc]; rfl)
          simpa [updP_same] using hold
        · intro _
          have hold := jhr (by rw [hpc]; rfl)
          simpa [updP_same] using hold
        · intro he
          have hq := jeat (by simpa [updP_same] using he)
          rw [hpc] at hq
          simp at hq
      · exact PhilInv_update_phils (updP_ne _ _ _ _ hij) rfl (hinv i hi)
  case setEatT =>
      injection h with h2
      subst h2
      intro i hi
      by_cases hij : i = j
      · subst hij
        refine ⟨by simpa [updP_same] using jx, by simpa [updP_same] using jl,
          by simpa [updP_same] using jr, by simpa [updP_same] using jlr, ?_, ?_, ?_⟩
        · intro _
          have hold := jhl (by rw [hpc]; rfl)
          simpa [updP_same] using hold
        · intro _
          have hold := jhr (by rw [hpc]; rfl)
          simpa [updP_same] using hold
        · intro _
          left
          simp [updP_same]
      · exact PhilInv_update_phils (updP_ne _ _ _ _ hij) rfl (hinv i hi)
  case sleepEat =>
      injection h with h2
      subst h2
      intro i hi
      by_cases hij : i = j
      · subst hij
        refine ⟨by simpa [updP_same] using jx, by simpa [updP_same] using jl,
          by simpa [updP_same] using jr, by simpa [updP_same] using jlr, ?_, ?_, ?_⟩
        · intro _
          have hold := jhl (by rw [hpc]; rfl)
          simpa [updP_same] using hold
        · intro _
          have hold := jhr (by rw [hpc]; rfl)
          simpa [updP_same] using hold
        · intro _
          right
          simp [updP_same]
      · exact PhilInv_update_phils (updP_ne _ _ _ _ hij) rfl (hinv i hi)
  case setEatF =>
      injection h with h2
      subst h2
      intro i hi
      by_cases hij : i = j
      · subst hij
        refine ⟨by simpa [updP_same] using jx, by simpa [updP_same] using jl,
          by simpa [updP_same] using jr, by simpa [updP_same] using jlr, ?_, ?_, ?_⟩
        · intro _
          have hold := jhl (by rw [hpc]; rfl)
          simpa [updP_same] using hold
        · intro _
          have hold := jhr (by rw [hpc]; rfl)
          simpa [updP_same] using hold
        · intro he
          simp [updP_same] at he
      · exact PhilInv_update_phils (updP_ne _ _ _ _ hij) rfl (hinv i hi)
  case relRight =>
      injection h with h2
      subst h2
      intro i hi
      by_cases hij : i = j
      · subst hij
        refine ⟨by simpa [updP_same] using jx, by simpa [updP_same] using jl,
          by simpa [updP_same] using jr, by simpa [updP_same] using jlr, ?_, ?_, ?_⟩
        · intro _
          have hold := jhl (by rw [hpc]; rfl)
          simpa [updP_same, updF_ne _ _ _ _ jlr] using hold
        · intro hc
          simp [updP_same, holdsRight] at hc
        · intro he
          have hq := jeat (by simpa [updP_same] using he)
          rw [hpc] at hq
          simp at hq
      · exact PhilInv_update_owned hij (updP_ne _ _ _ _ hij) rfl
          ((jhr (by rw [hpc]; rfl)).2) (hinv i hi)
  case relLeft =>
      injection h with h2
      subst h2
      intro i hi
      by_cases hij : i = j
      · subst hij
        refine ⟨by simpa [updP_same] using jx, by simpa [updP_same] using jl,
          by simpa [updP_same] using jr, by simpa [updP_same] using jlr, ?_, ?_, ?_⟩
        · intro hc
          simp [updP_same, holdsLeft] at hc
        · intro hc
          simp [updP_same, holdsRight] at hc
        · intro he
          have hq := jeat (by simpa [updP_same] using he)
          rw [hpc] at hq
          simp at hq
      · exact PhilInv_update_owned hij (updP_ne _ _ _ _ hij) rfl
          ((jhl (by rw [hpc]; rfl)).2) (hinv i hi)
  case done =>
      exact absurd h (by simp)

/-- The initial state satisfies the ownership invariant (the ring needs
at least two positions so that no actor's two forks coincide). -/
lemma sysInv_init (n : Nat) (m : Int) (hn : 2 ≤ n) : SysInv n (initSys n m) := by
  intro i hi
  refine ⟨rfl, rfl, rfl, ring_ne n hn i hi, ?_, ?_, ?_⟩
  · intro hc
    simp [initSys, Phil.init, holdsLeft] at hc
  · intro hc
    simp [initSys, Phil.init, holdsRight] at hc
  · intro he
    simp [initSys, Phil.init] at he

/-- The ownership invariant holds in every state reachable by
philosopher steps alone. -/
lemma sysInv_reachableNoWd (n : Nat) (m : Int) (hn : 2 ≤ n) (s : Sys)
    (hr : ReachableNoWd n (initSys n m) s) : SysInv n s := by
  unfold ReachableNoWd at hr
  induction hr with
  | refl => exact sysInv_init n m hn
  | tail hab hbc ih =>
      obtain ⟨i, hi, hstep⟩ := hbc
      exact philStep_inv hi hstep ih

/-- Running a schedule of in-range thread indices only visits states
reachable by philosopher transitions. -/
lemma reachableNoWd_runSched (n : Nat) (s : Sys) (l : List Nat)
    (h : ∀ i, i ∈ l → i < n) : ReachableNoWd n s (runSched s l) := by
  induction l generalizing s with
  | nil => exact Relation.ReflTransGen.refl
  | cons a l ih =>
      show ReachableNoWd n s (runSched ((philStep s a).getD s) l)
      cases hstep : philStep s a with
      | none =>
          simp only [Option.getD_none]
          exact ih s (fun i hi => h i (List.mem_cons_of_mem a hi))
      | some s2 =>
          simp only [Option.getD_some]
          exact Relation.ReflTransGen.head
            ⟨a, h a (List.mem_cons_self a l), hstep⟩
            (ih s2 (fun i hi => h i (List.mem_cons_of_mem a hi)))

/-- Philosopher-only reachability implies reachability of the full
system. -/
lemma reachable_of_reachableNoWd {n : Nat} {s s2 : Sys}
    (h : ReachableNoWd n s s2) : Reachable n s s2 := by
  unfold ReachableNoWd at h
  unfold Reachable
  induction h with
  | refl => exact Relation.ReflTransGen.refl
  | tail hab hbc ih =>
      obtain ⟨i, hi, hstep⟩ := hbc
      exact Relation.ReflTransGen.tail ih (SysTrans.phil i hi hstep)

/-! ### C1: eating implies both forks held -/

/-- C1 as stated is false for the full program: the watchdog's forced
release can fire while an actor is eating.  From the reference
configuration (5 actors, 7 units), run actor 0 up to its consumption
sleep and let the watchdog forcibly release fork 1: the reached state
has actor 0 with `eating = true` while its right fork (fork 1) is not
picked up and carries the sentinel owner `-1`, not the actor's index —
an observer sees `eating = true` with only one resource held. -/
theorem C1_counterexample :
    Reachable 5 (initSys 5 7) corruptedState ∧
    (corruptedState.phils 0).eating = true ∧
    (corruptedState.phils 0).index = 0 ∧
    (corruptedState.phils 0).right = 1 ∧
    (corruptedState.forks 1).picked_up = false ∧
    (corruptedState.forks 1).owner ≠ ((corruptedState.phils 0).index : Int) := by
  refine ⟨?_, by decide, by decide, by decide, by decide, by decide⟩
  have h1 : ReachableNoWd 5 (initSys 5 7) eatingState :=
    reachableNoWd_runSched 5 (initSys 5 7) [0, 0, 0, 0, 0, 0, 0]
      (by intro i hi; simp at hi; omega)
  exact Relation.ReflTransGen.tail (reachable_of_reachableNoWd h1)
    (SysTrans.force 1 (by omega))

/-- C1 amended: in every state reachable without watchdog intervention
(philosopher steps only), an actor whose `eating` flag is true holds
both of its adjacent forks: each fork is picked up and has the actor's
index as owner; `eat()` sets `eating = false` before releasing either
fork, so this holds at every interleaving point.  A watchdog forced
release can break the property. -/
theorem C1_eating_implies_both_held (n : Nat) (m : Int) (hn : 2 ≤ n) (s : Sys)
    (hr : ReachableNoWd n (initSys n m) s) (i : Nat) (hi : i < n)
    (he : (s.phils i).eating = true) :
    heldBy (s.forks (s.phils i).left) i ∧ heldBy (s.forks (s.phils i).right) i := by
  obtain ⟨ix, il, ir, ilr, ihl, ihr, ieat⟩ := sysInv_reachableNoWd n m hn s hr i hi
  rcases ieat he with hpc | hpc <;>
    exact ⟨ihl (by rw [hpc]; rfl), ihr (by rw [hpc]; rfl)⟩

/-- Witness for C1 amended: in the state where actor 0 of the reference
configuration is eating, it holds both fork 0 and fork 1. -/
theorem C1_eating_implies_both_held_witness :
    heldBy (eatingState.forks (eatingState.phils 0).left) 0 ∧
    heldBy (eatingState.forks (eatingState.phils 0).right) 0 :=
  C1_eating_implies_both_held 5 7 (by omega) eatingState
    (reachableNoWd_runSched 5 (initSys 5 7) [0, 0, 0, 0, 0, 0, 0]
      (by intro i hi; simp at hi; omega))
    0 (by omega) (by decide)
